import Mathlib

/-!
# Verification of the JWKS server credential-lifecycle subsystem

A shallow embedding, in Lean 4, of the credential lifecycle subsystem of the
`CSCE-3550_JWKS-SRV` Go repository: the symmetric sealer
(`internal/crypto/encryptor.go`), the persistent key store and its encrypted
manager (`internal/db/db.go`), the key lifecycle manager
(`internal/keys/manager.go`, `internal/keys/key.go`), and the token signer
(`internal/jwt/jwt.go`).

Bytes are modelled as `Nat` (Go `byte` values are below 256; theorems carry
that bound where it matters), byte slices as `List Nat`, Unix timestamps and
Go `time` nanosecond values as `Int`, and fallible Go functions as
`Except`/`Option`-valued Lean functions.  Go's `crypto/cipher.AEAD` interface
(an external standard-library collaborator, not code of this repository) is
modelled as a structure of functions; its documented contract — opening a
sealed message with the sealing nonce returns the plaintext — is an explicit
hypothesis where a theorem needs it.  Randomness (the AEAD nonce) and Go map
iteration order (unspecified in Go) are modelled as explicit parameters, so a
"for any nonce / any iteration order" claim is a `∀` over that parameter.
-/

namespace JwksSrv

/-! ## Symmetric sealer — `internal/crypto/encryptor.go`

`Encryptor` wraps a `cipher.AEAD`.  The AEAD itself is Go standard library
code; we model it as an abstract record of its `NonceSize`, `Seal` and `Open`
operations (`Seal`'s destination-prefix argument is handled at the call site,
as in the Go source, where `aead.Seal(nonce, nonce, plaintext, nil)` appends
the sealed bytes to a copy of `nonce`). -/

/-- Model of Go's `cipher.AEAD` interface: nonce size, `Seal` (without the
destination-prefix argument) and `Open` (`none` = authentication failure). -/
structure AEAD where
  nonceSize : Nat
  sealFn : List Nat → List Nat → List Nat
  openFn : List Nat → List Nat → Option (List Nat)

/-- The documented contract of Go's `cipher.AEAD`: opening a sealed message
with the nonce used to seal it yields the original plaintext.  This is a
property of the standard-library AES-GCM implementation, which is outside
this repository; theorems that need it take it as a hypothesis. -/
def AEAD.RoundTrip (e : AEAD) : Prop :=
  ∀ nonce pt : List Nat, nonce.length = e.nonceSize →
    e.openFn nonce (e.sealFn nonce pt) = some pt

/-- Errors surfaced by `Encryptor.Decrypt`: `ErrCiphertextTooShort`, or the
wrapped error from `aead.Open` (authentication failure). -/
inductive DecryptError where
  | ciphertextTooShort
  | decryptFailed
  deriving DecidableEq, Repr

/-- `NewEncryptor` (encryptor.go:26-45): rejects the empty passphrase with
`ErrEmptyPassphrase`, otherwise derives the cipher from the passphrase.  The
SHA-256 key derivation and AES-GCM construction are standard-library calls,
modelled by the abstract derivation function `derive`. -/
def NewEncryptor (derive : String → AEAD) (passphrase : String) : Option AEAD :=
  if passphrase = "" then none else some (derive passphrase)

/-- `Encryptor.Encrypt` (encryptor.go:50-65): draws a fresh random nonce of
`aead.NonceSize()` bytes (the draw is modelled by the explicit `nonce`
argument) and returns `nonce ‖ aead.Seal(plaintext)`. -/
def Encryptor.Encrypt (e : AEAD) (nonce plaintext : List Nat) : List Nat :=
  nonce ++ e.sealFn nonce plaintext

/-- `Encryptor.Decrypt` (encryptor.go:70-87): fails with
`ErrCiphertextTooShort` when the blob is shorter than the nonce size;
otherwise splits off the nonce and opens the remainder, turning an
`aead.Open` failure into a wrapped decryption error. -/
def Encryptor.Decrypt (e : AEAD) (ciphertext : List Nat) :
    Except DecryptError (List Nat) :=
  if ciphertext.length < e.nonceSize then
    .error .ciphertextTooShort
  else
    match e.openFn (ciphertext.take e.nonceSize) (ciphertext.drop e.nonceSize) with
    | some plaintext => .ok plaintext
    | none => .error .decryptFailed

/-- A concrete AEAD instance used to instantiate hypotheses in witnesses:
two-byte nonce, sealing appends a two-byte tag, opening strips it after
checking it. -/
def tagAEAD : AEAD where
  nonceSize := 2
  sealFn := fun _ pt => pt ++ [7, 7]
  openFn := fun _ ct =>
    if ct.length < 2 then none
    else if ct.drop (ct.length - 2) = [7, 7] then some (ct.take (ct.length - 2))
    else none

theorem tagAEAD_roundTrip : AEAD.RoundTrip tagAEAD := by
  intro nonce pt _
  simp only [tagAEAD, AEAD.RoundTrip]
  have hlen : (pt ++ [7, 7]).length = pt.length + 2 := by simp
  rw [if_neg (by omega)]
  have hdrop : (pt ++ [7, 7]).drop ((pt ++ [7, 7]).length - 2) = [7, 7] := by
    simp [hlen]
  have htake : (pt ++ [7, 7]).take ((pt ++ [7, 7]).length - 2) = pt := by
    simp [hlen]
  rw [if_pos hdrop, htake]

/-- C1: for every non-empty passphrase, every byte sequence `x` (including the
empty one) and every nonce of the correct size that the encryption draws,
decrypting the result of encrypting `x` with the Sealer constructed from that
passphrase returns exactly `x` (given the standard-library AEAD contract). -/
theorem unseal_seal_roundtrip (derive : String → AEAD) (passphrase : String)
    (hpass : passphrase ≠ "") (e : AEAD)
    (henc : NewEncryptor derive passphrase = some e)
    (hgcm : e.RoundTrip) (nonce x : List Nat)
    (hnonce : nonce.length = e.nonceSize) :
    Encryptor.Decrypt e (Encryptor.Encrypt e nonce x) = .ok x := by
  unfold Encryptor.Decrypt Encryptor.Encrypt
  have hlen : (nonce ++ e.sealFn nonce x).length = e.nonceSize + (e.sealFn nonce x).length := by
    simp [hnonce]
  rw [if_neg (by omega)]
  rw [List.take_left' hnonce, List.drop_left' hnonce, hgcm nonce x hnonce]

theorem unseal_seal_roundtrip_witness :
    ("pw" : String) ≠ "" ∧ NewEncryptor (fun _ => tagAEAD) "pw" = some tagAEAD ∧
      ([0, 0] : List Nat).length = tagAEAD.nonceSize ∧
      Encryptor.Decrypt tagAEAD (Encryptor.Encrypt tagAEAD [0, 0] [1, 2, 3]) = .ok [1, 2, 3] :=
  ⟨by decide, rfl, rfl,
    unseal_seal_roundtrip (fun _ => tagAEAD) "pw" (by decide) tagAEAD rfl
      tagAEAD_roundTrip [0, 0] [1, 2, 3] rfl⟩

/-- C8: `Decrypt` returns the ciphertext-too-short error exactly when the blob
is shorter than the nonce size (in particular on the empty blob); for a blob
of length at least the nonce size it never returns that error. -/
theorem decrypt_too_short_iff (e : AEAD) (blob : List Nat) :
    Encryptor.Decrypt e blob = .error .ciphertextTooShort ↔
      blob.length < e.nonceSize := by
  unfold Encryptor.Decrypt
  by_cases h : blob.length < e.nonceSize
  · simp [h]
  · rw [if_neg h]
    cases hopen : e.openFn (blob.take e.nonceSize) (blob.drop e.nonceSize) <;>
      simp [h]

/-! ## Persistent key store — `internal/db/db.go`

The `keys` table has columns `kid INTEGER PRIMARY KEY AUTOINCREMENT`,
`key BLOB NOT NULL`, `exp INTEGER NOT NULL`.  We model a table state as the
list of rows in insertion (rowid) order together with the next
auto-increment id; `INSERT` appends a row and returns `LastInsertId`. -/

/-- An RSA private key.  Only its identity matters for the store-level
claims; the fields mirror the arithmetically relevant parts of Go's
`rsa.PrivateKey` (modulus, public exponent, private exponent). -/
structure RSAKey where
  n : Nat
  e : Nat
  d : Nat
  deriving DecidableEq, Repr

/-- One row of the `keys` table. -/
structure KeyRow where
  kid : Nat
  blob : List Nat
  exp : Int
  deriving DecidableEq, Repr

/-- The `keys` table: rows in rowid order plus the auto-increment counter. -/
structure KeysTable where
  nextKid : Nat
  rows : List KeyRow
  deriving DecidableEq, Repr

/-- `INSERT INTO keys (key, exp) VALUES (?, ?)` followed by `LastInsertId`:
appends a row with the next auto-increment id and returns that id. -/
def KeysTable.insert (t : KeysTable) (blob : List Nat) (exp : Int) :
    Nat × KeysTable :=
  (t.nextKid, ⟨t.nextKid + 1, t.rows ++ [⟨t.nextKid, blob, exp⟩]⟩)

/-- `Database.SaveKey` (db.go:138-164), the legacy plaintext path: serializes
the private key to PKCS1 PEM (the standard-library serialization is modelled
by the abstract `pemEncode`) and inserts the PEM bytes directly — with no
encryption — returning the assigned kid. -/
def Database.SaveKey (pemEncode : RSAKey → List Nat) (privateKey : RSAKey)
    (expUnix : Int) (t : KeysTable) : Nat × KeysTable :=
  t.insert (pemEncode privateKey) expUnix

/-- `Manager.StoreKey` (db.go:466-494), the encrypted path: serializes the
private key to PKCS1 PEM, encrypts the PEM bytes with the Sealer (the nonce
the Sealer draws is the explicit `nonce` argument), and inserts the
encrypted blob, returning the assigned kid. -/
def Manager.StoreKey (enc : AEAD) (pemEncode : RSAKey → List Nat)
    (nonce : List Nat) (privateKey : RSAKey) (expUnix : Int) (t : KeysTable) :
    Nat × KeysTable :=
  t.insert (Encryptor.Encrypt enc nonce (pemEncode privateKey)) expUnix

/-- C2 counterexample data: a one-key "PEM" serialization. -/
def cexPem : RSAKey → List Nat := fun _ => [9, 9, 9]

/-- C2 (as stated) is false: the legacy save path `Database.SaveKey` writes
the serialized private key to the `keys` table unencrypted.  Concretely,
saving a key whose PEM serialization is `[9, 9, 9]` into an empty table
stores the blob `[9, 9, 9]` itself, which is not the Sealer-encrypted form
(here with the two-byte-nonce AEAD and nonce `[0, 0]`, under which every
encrypted blob starts with the nonce). -/
theorem saveKey_stores_plaintext_cex :
    (Database.SaveKey cexPem ⟨1, 2, 3⟩ 100 ⟨1, []⟩).2.rows =
        [⟨1, [9, 9, 9], 100⟩] ∧
      Encryptor.Encrypt tagAEAD [0, 0] (cexPem ⟨1, 2, 3⟩) ≠ [9, 9, 9] := by
  exact ⟨rfl, by decide⟩

/-- C2 as amended: every key persisted through the encrypted save path
`Manager.StoreKey` reaches the `keys` table only as the Sealer-encrypted form
of its PEM serialization — every row of the resulting table is either a
pre-existing row or carries exactly the encrypted blob; the legacy
`Database.SaveKey` path, by contrast, stores the PEM serialization
unencrypted. -/
theorem storeKey_stores_encrypted (enc : AEAD) (pemEncode : RSAKey → List Nat)
    (nonce : List Nat) (k : RSAKey) (exp : Int) (t : KeysTable) :
    (∀ r ∈ (Manager.StoreKey enc pemEncode nonce k exp t).2.rows,
        r ∈ t.rows ∨ r.blob = Encryptor.Encrypt enc nonce (pemEncode k)) ∧
      (Database.SaveKey pemEncode k exp t).2.rows =
        t.rows ++ [⟨t.nextKid, pemEncode k, exp⟩] := by
  constructor
  · intro r hr
    simp only [Manager.StoreKey, KeysTable.insert, List.mem_append,
      List.mem_singleton] at hr
    rcases hr with h | h
    · exact Or.inl h
    · exact Or.inr (by rw [h])
  · rfl

/-! ### Store queries

`Database.GetValidKeys` / `GetExpiredKeys` (db.go:167-244) run
`SELECT kid, key, exp FROM keys WHERE exp > ? / exp <= ? ORDER BY kid DESC`;
`GetAnyValidKey` / `GetAnyExpiredKey` (db.go:274-330) add `LIMIT 1` and turn
`sql.ErrNoRows` into a not-found error (modelled as `none`).
`ORDER BY kid DESC` is modelled by sorting with the decreasing-kid relation;
`LIMIT 1` by taking the head. -/

/-- The `ORDER BY kid DESC` ordering: `a` comes no later than `b`. -/
def kidGE (a b : KeyRow) : Prop := b.kid ≤ a.kid

instance : DecidableRel kidGE := fun a b => Nat.decLe b.kid a.kid

instance : IsTotal KeyRow kidGE := ⟨fun a b => Nat.le_total b.kid a.kid⟩

instance : IsTrans KeyRow kidGE := ⟨fun _ _ _ h h' => Nat.le_trans h' h⟩

/-- The SQL predicate `exp > now`. -/
def validAt (now : Int) (r : KeyRow) : Bool := now < r.exp

/-- The SQL predicate `exp <= now`. -/
def expiredAt (now : Int) (r : KeyRow) : Bool := r.exp ≤ now

/-- `Database.GetValidKeys` (db.go:167-204): all rows with `exp > now`,
ordered by kid descending. -/
def Database.GetValidKeys (now : Int) (t : KeysTable) : List KeyRow :=
  List.insertionSort kidGE (t.rows.filter (validAt now))

/-- `Database.GetExpiredKeys` (db.go:207-244): all rows with `exp <= now`,
ordered by kid descending. -/
def Database.GetExpiredKeys (now : Int) (t : KeysTable) : List KeyRow :=
  List.insertionSort kidGE (t.rows.filter (expiredAt now))

/-- `Database.GetAnyValidKey` (db.go:275-301): `LIMIT 1` over the
kid-descending valid query; `sql.ErrNoRows` becomes a not-found error. -/
def Database.GetAnyValidKey (now : Int) (t : KeysTable) : Option KeyRow :=
  (Database.GetValidKeys now t).head?

/-- `Database.GetAnyExpiredKey` (db.go:304-330): `LIMIT 1` over the
kid-descending expired query; `sql.ErrNoRows` becomes a not-found error. -/
def Database.GetAnyExpiredKey (now : Int) (t : KeysTable) : Option KeyRow :=
  (Database.GetExpiredKeys now t).head?

/-- `Manager.GetValidKeys` (db.go:496-498) runs
`SELECT kid, key FROM keys WHERE exp > ?` with *no* `ORDER BY` and collects
the rows into a Go `map[int]*rsa.PrivateKey`.  We model the queried rows in
table order; map iteration order is an explicit parameter wherever the map
is ranged over. -/
def Manager.GetValidKeysRows (now : Int) (t : KeysTable) : List KeyRow :=
  t.rows.filter (validAt now)

/-- `Manager.GetExpiredKeys` (db.go:500-502): `WHERE exp <= ?`, no
`ORDER BY`, collected into a Go map. -/
def Manager.GetExpiredKeysRows (now : Int) (t : KeysTable) : List KeyRow :=
  t.rows.filter (expiredAt now)

theorem length_filter_add_length_filter_not (l : List KeyRow)
    (p : KeyRow → Bool) :
    (l.filter p).length + (l.filter (fun r => ! p r)).length = l.length := by
  induction l with
  | nil => rfl
  | cons a l ih =>
    by_cases h : p a <;> simp [List.filter_cons, h] <;> omega

theorem expiredAt_eq_not_validAt (now : Int) (r : KeyRow) :
    expiredAt now r = ! validAt now r := by
  simp only [expiredAt, validAt]
  by_cases h : r.exp ≤ now
  · simp [h, not_lt.mpr h]
  · simp [h, lt_of_not_le h]

/-- C3: for every table state and every `now`, the valid-keys query and the
expired-keys query partition the stored rows — every stored row appears in
exactly one of the two results, no row appears in both, and the two result
sizes add up to the table size. -/
theorem valid_expired_partition (now : Int) (t : KeysTable) :
    (∀ r : KeyRow,
        (r ∈ t.rows ↔
          (r ∈ Database.GetValidKeys now t ∨ r ∈ Database.GetExpiredKeys now t)) ∧
        ¬(r ∈ Database.GetValidKeys now t ∧ r ∈ Database.GetExpiredKeys now t)) ∧
      (Database.GetValidKeys now t).length + (Database.GetExpiredKeys now t).length =
        t.rows.length := by
  refine ⟨fun r => ?_, ?_⟩
  · simp only [Database.GetValidKeys, Database.GetExpiredKeys,
      List.mem_insertionSort, List.mem_filter]
    constructor
    · constructor
      · intro hr
        by_cases h : validAt now r
        · exact Or.inl ⟨hr, h⟩
        · refine Or.inr ⟨hr, ?_⟩
          rw [expiredAt_eq_not_validAt]
          simpa using h
      · rintro (⟨hr, _⟩ | ⟨hr, _⟩) <;> exact hr
    · rintro ⟨⟨_, hv⟩, ⟨_, he⟩⟩
      rw [expiredAt_eq_not_validAt] at he
      simp [hv] at he
  · simp only [Database.GetValidKeys, Database.GetExpiredKeys,
      List.length_insertionSort]
    have := length_filter_add_length_filter_not t.rows (validAt now)
    calc (t.rows.filter (validAt now)).length +
          (t.rows.filter (expiredAt now)).length
        = (t.rows.filter (validAt now)).length +
          (t.rows.filter (fun r => ! validAt now r)).length := by
          have hf : t.rows.filter (expiredAt now) =
              t.rows.filter (fun r => ! validAt now r) :=
            List.filter_congr (fun r _ => expiredAt_eq_not_validAt now r)
          rw [hf]
      _ = t.rows.length := this

/-! ## Custom base64url codec — `internal/jwt/jwt.go:82-117` and
`internal/keys/key.go:51-86` (two identical copies)

The encoder walks the input three bytes at a time, packs each group into a
24-bit value `combined = b1<<16 | b2<<8 | b3` (missing trailing bytes read as
zero), and emits the 6-bit slices `combined>>18 & 0x3F`, `combined>>12 & 0x3F`
always, `combined>>6 & 0x3F` when a second byte exists and `combined & 0x3F`
when a third byte exists.  Strings are modelled as `List Char`. -/

/-- The 64-character base64url alphabet constant from the source. -/
def b64Alphabet : List Char :=
  "ABCDEFGHIJKLMNOPQRSTUVWXYZabcdefghijklmnopqrstuvwxyz0123456789-_".toList

/-- `alphabet[n]` — indexing into the alphabet string. -/
def b64char (n : Nat) : Char := b64Alphabet.getD n 'A'

/-- `encodeBase64URL` (jwt.go:82-117 = key.go:51-86), translated clause for
clause: the `i += 3` loop becomes three-byte structural recursion, the
`i+1 < len` / `i+2 < len` guards become the one- and two-byte final cases
(where the missing bytes are the source's `byte(0)` defaults, so the `|`
terms for them vanish). -/
def encodeBase64URL : List Nat → List Char
  | [] => []
  | [b1] =>
    let combined := b1 <<< 16
    [b64char ((combined >>> 18) &&& 63), b64char ((combined >>> 12) &&& 63)]
  | [b1, b2] =>
    let combined := (b1 <<< 16) ||| (b2 <<< 8)
    [b64char ((combined >>> 18) &&& 63), b64char ((combined >>> 12) &&& 63),
      b64char ((combined >>> 6) &&& 63)]
  | b1 :: b2 :: b3 :: rest =>
    let combined := (b1 <<< 16) ||| (b2 <<< 8) ||| b3
    b64char ((combined >>> 18) &&& 63) :: b64char ((combined >>> 12) &&& 63) ::
      b64char ((combined >>> 6) &&& 63) :: b64char (combined &&& 63) ::
      encodeBase64URL rest

/-- The four base64 symbols of one 24-bit group value, per the standard. -/
def b64group (v : Nat) : List Char :=
  [b64char (v / 2 ^ 18 % 64), b64char (v / 2 ^ 12 % 64),
    b64char (v / 2 ^ 6 % 64), b64char (v % 64)]

/-- Reference encoder, written from the spec's words ("process input in
3-byte groups producing 4-symbol groups, with the final partial group
producing 2 or 3 symbols per standard truncation rules; return an empty
string for empty input"): each full group contributes the four symbols of
its 24-bit value; a final 1- or 2-byte group is zero-padded to 24 bits and
contributes the first 2 or 3 symbols. -/
def base64urlSpec : List Nat → List Char
  | [] => []
  | [b1] => (b64group (b1 * 2 ^ 16)).take 2
  | [b1, b2] => (b64group (b1 * 2 ^ 16 + b2 * 2 ^ 8)).take 3
  | b1 :: b2 :: b3 :: rest =>
    b64group (b1 * 2 ^ 16 + b2 * 2 ^ 8 + b3) ++ base64urlSpec rest

/-- Three-bytes-at-a-time induction, following the encoder's recursion. -/
theorem threeStep_induction {P : List Nat → Prop} (h0 : P [])
    (h1 : ∀ b1, P [b1]) (h2 : ∀ b1 b2, P [b1, b2])
    (h3 : ∀ b1 b2 b3 rest, P rest → P (b1 :: b2 :: b3 :: rest)) :
    ∀ d, P d
  | [] => h0
  | [b1] => h1 b1
  | [b1, b2] => h2 b1 b2
  | b1 :: b2 :: b3 :: rest =>
    h3 b1 b2 b3 rest (threeStep_induction h0 h1 h2 h3 rest)

/-- Bitwise-or of a left-shifted value with a small value is addition. -/
theorem two_pow_mul_lor_eq_add {k a b : Nat} (h : b < 2 ^ k) :
    (2 ^ k * a) ||| b = 2 ^ k * a + b := by
  apply Nat.eq_of_testBit_eq
  intro i
  have hs : 2 ^ k * a = a <<< k := by rw [Nat.shiftLeft_eq, Nat.mul_comm]
  rcases Nat.lt_or_ge i k with hik | hik
  · rw [hs, Nat.testBit_lor, Nat.testBit_shiftLeft]
    have hlow : (a <<< k + b).testBit i = b.testBit i := by
      have hmod : (a <<< k + b) % 2 ^ k = b := by
        rw [Nat.shiftLeft_eq, Nat.mul_comm, Nat.mul_add_mod, Nat.mod_eq_of_lt h]
      have := Nat.testBit_mod_two_pow (a <<< k + b) k i
      rw [hmod, decide_eq_true hik, Bool.true_and] at this
      exact this.symm
    rw [hlow, decide_eq_false (Nat.not_le.mpr hik), Bool.false_and, Bool.false_or]
  · rw [hs, Nat.testBit_lor, Nat.testBit_shiftLeft]
    have hb : b.testBit i = false :=
      Nat.testBit_lt_two_pow (Nat.lt_of_lt_of_le h (Nat.pow_le_pow_right (by omega) hik))
    have hhigh : (a <<< k + b).testBit i = a.testBit (i - k) := by
      have hi : i = k + (i - k) := by omega
      have hdiv : (a <<< k + b) >>> k = a := by
        rw [Nat.shiftLeft_eq, Nat.shiftRight_eq_div_pow, Nat.mul_comm,
          Nat.mul_add_div (Nat.two_pow_pos k), Nat.div_eq_of_lt h, Nat.add_zero]
      conv_lhs => rw [hi]
      rw [← Nat.testBit_shiftRight, hdiv]
    rw [hhigh, hb, decide_eq_true hik, Bool.true_and, Bool.or_false]

/-- Masking with `0x3F` is reduction mod 64. -/
theorem and_63_eq_mod (v : Nat) : v &&& 63 = v % 64 := by
  have h := Nat.and_pow_two_sub_one_eq_mod v 6
  norm_num at h
  exact h

/-- The `combined` value of a full group equals the 24-bit group value. -/
theorem combined_eq (b1 b2 b3 : Nat) (h2 : b2 < 256) (h3 : b3 < 256) :
    (b1 <<< 16) ||| (b2 <<< 8) ||| b3 = b1 * 2 ^ 16 + b2 * 2 ^ 8 + b3 := by
  have e1 : b1 <<< 16 = 2 ^ 16 * b1 := by rw [Nat.shiftLeft_eq, Nat.mul_comm]
  have e2 : b2 <<< 8 = 2 ^ 8 * b2 := by rw [Nat.shiftLeft_eq, Nat.mul_comm]
  rw [e1, e2]
  have step1 : (2 ^ 16 * b1) ||| (2 ^ 8 * b2) = 2 ^ 16 * b1 + 2 ^ 8 * b2 :=
    two_pow_mul_lor_eq_add (by omega)
  rw [step1]
  have hre : 2 ^ 16 * b1 + 2 ^ 8 * b2 = 2 ^ 8 * (2 ^ 8 * b1 + b2) := by ring
  rw [hre, two_pow_mul_lor_eq_add h3]
  ring

/-- The two-byte `combined` value equals its zero-padded group value. -/
theorem combined_eq_two (b1 b2 : Nat) (h2 : b2 < 256) :
    (b1 <<< 16) ||| (b2 <<< 8) = b1 * 2 ^ 16 + b2 * 2 ^ 8 := by
  have e1 : b1 <<< 16 = 2 ^ 16 * b1 := by rw [Nat.shiftLeft_eq, Nat.mul_comm]
  have e2 : b2 <<< 8 = 2 ^ 8 * b2 := by rw [Nat.shiftLeft_eq, Nat.mul_comm]
  rw [e1, e2, two_pow_mul_lor_eq_add (by omega)]
  ring

theorem shift_mask_eq (v k : Nat) : (v >>> k) &&& 63 = v / 2 ^ k % 64 := by
  rw [Nat.shiftRight_eq_div_pow, and_63_eq_mod]

theorem encodeBase64URL_eq_spec :
    ∀ d : List Nat, (∀ b ∈ d, b < 256) →
      encodeBase64URL d = base64urlSpec d := by
  intro d
  induction d using threeStep_induction with
  | h0 => intro _; rfl
  | h1 b1 =>
    intro _
    simp [encodeBase64URL, base64urlSpec, b64group, shift_mask_eq,
      Nat.shiftLeft_eq]
  | h2 b1 b2 =>
    intro hb
    have h2 : b2 < 256 := hb b2 (by simp)
    simp [encodeBase64URL, base64urlSpec, b64group, shift_mask_eq,
      combined_eq_two b1 b2 h2]
  | h3 b1 b2 b3 rest ih =>
    intro hb
    have h2 : b2 < 256 := hb b2 (by simp)
    have h3 : b3 < 256 := hb b3 (by simp)
    have hrest : ∀ b ∈ rest, b < 256 := fun b hbr => hb b (by simp [hbr])
    simp [encodeBase64URL, base64urlSpec, b64group, shift_mask_eq,
      and_63_eq_mod, Nat.shiftRight_eq_div_pow, combined_eq b1 b2 b3 h2 h3, ih hrest]

theorem encodeBase64URL_length (d : List Nat) :
    (encodeBase64URL d).length =
      4 * (d.length / 3) + (if d.length % 3 = 0 then 0 else d.length % 3 + 1) := by
  induction d using threeStep_induction with
  | h0 => rfl
  | h1 b1 => simp [encodeBase64URL]
  | h2 b1 b2 => simp [encodeBase64URL]
  | h3 b1 b2 b3 rest ih =>
    simp only [encodeBase64URL, List.length_cons, ih]
    have hmod : (rest.length + 1 + 1 + 1) % 3 = rest.length % 3 := by omega
    have hdiv : (rest.length + 1 + 1 + 1) / 3 = rest.length / 3 + 1 := by omega
    rw [hmod, hdiv]
    by_cases h : rest.length % 3 = 0 <;> simp [h] <;> omega

theorem getD_mem_of_default_mem {l : List Char} {d : Char} (hd : d ∈ l)
    (n : Nat) : l.getD n d ∈ l := by
  rcases Nat.lt_or_ge n l.length with h | h
  · rw [List.getD_eq_getElem l d h]
    exact List.getElem_mem h
  · rw [List.getD_eq_default l d h]
    exact hd

theorem b64char_mem (n : Nat) : b64char n ∈ b64Alphabet :=
  getD_mem_of_default_mem (by decide) n

theorem encodeBase64URL_mem (d : List Nat) :
    ∀ c ∈ encodeBase64URL d, c ∈ b64Alphabet := by
  induction d using threeStep_induction with
  | h0 => intro c hc; simp [encodeBase64URL] at hc
  | h1 b1 =>
    intro c hc
    simp [encodeBase64URL] at hc
    rcases hc with rfl | rfl <;> exact b64char_mem _
  | h2 b1 b2 =>
    intro c hc
    simp [encodeBase64URL] at hc
    rcases hc with rfl | rfl | rfl <;> exact b64char_mem _
  | h3 b1 b2 b3 rest ih =>
    intro c hc
    simp [encodeBase64URL] at hc
    rcases hc with rfl | rfl | rfl | rfl | hc
    · exact b64char_mem _
    · exact b64char_mem _
    · exact b64char_mem _
    · exact b64char_mem _
    · exact ih c hc

/-- C4: for every byte sequence, the custom encoder produces the standard
unpadded base64url encoding: it agrees with the reference encoder built from
the standard truncation rules, returns `[]` on empty input, emits
`4⌊n/3⌋ + {0, 2, 3}` symbols (2 or 3 for a final partial group of 1 or 2
bytes), uses only the 64-character base64url alphabet, and never emits
`'='` padding. -/
theorem base64url_correct (d : List Nat) (hd : ∀ b ∈ d, b < 256) :
    encodeBase64URL d = base64urlSpec d ∧
      (d = [] → encodeBase64URL d = []) ∧
      (encodeBase64URL d).length =
        4 * (d.length / 3) + (if d.length % 3 = 0 then 0 else d.length % 3 + 1) ∧
      (∀ c ∈ encodeBase64URL d, c ∈ b64Alphabet) ∧
      '=' ∉ encodeBase64URL d := by
  refine ⟨encodeBase64URL_eq_spec d hd, ?_, encodeBase64URL_length d,
    encodeBase64URL_mem d, ?_⟩
  · rintro rfl; rfl
  · intro h
    have := encodeBase64URL_mem d '=' h
    revert this
    decide

theorem base64url_correct_witness :
    (∀ b ∈ ([77, 97, 110] : List Nat), b < 256) ∧
      (encodeBase64URL [77, 97, 110] = base64urlSpec [77, 97, 110] ∧
        (([77, 97, 110] : List Nat) = [] → encodeBase64URL [77, 97, 110] = []) ∧
        (encodeBase64URL [77, 97, 110]).length =
          4 * (([77, 97, 110] : List Nat).length / 3) +
            (if ([77, 97, 110] : List Nat).length % 3 = 0 then 0
              else ([77, 97, 110] : List Nat).length % 3 + 1) ∧
        (∀ c ∈ encodeBase64URL [77, 97, 110], c ∈ b64Alphabet) ∧
        '=' ∉ encodeBase64URL [77, 97, 110]) :=
  ⟨by decide, base64url_correct [77, 97, 110] (by decide)⟩

/-! ## Key lifecycle manager — `internal/keys/key.go`, `internal/keys/manager.go`

`keys.Manager` holds `keys map[string]*Key` and `currentKey *Key` and
delegates reads to the encrypted `db.Manager`, whose `getKeys` returns a Go
`map[int]*rsa.PrivateKey`.  Go map iteration order is unspecified, so every
function that ranges over such a map takes the iteration order as an explicit
`iter` parameter; theorems relate `iter` to the queried rows by a permutation
hypothesis.  `Key.ID` in Go is the decimal string of the database kid
(`strconv.Itoa` / `fmt.Sprintf`); decimal formatting of naturals is
injective, so the model carries the kid itself. -/

/-- `keys.Key` (key.go:9-15): id, temporal metadata and the keypair.
`priv` stands for both `PrivateKey` and the embedded `PublicKey`. -/
structure Key where
  id : Nat
  createdAt : Int
  expiresAt : Int
  priv : RSAKey
  deriving DecidableEq, Repr

/-- `keys.Manager.GetValidKeys` (manager.go:108-128): ranges over the map
returned by `dbManager.GetValidKeys()` in iteration order `iter`, building
for each entry a `Key` with *fabricated* timestamps
`CreatedAt = now - keyLifetime` and `ExpiresAt = now + keyLifetime`
("approximate" per the source comments); returns the empty slice when the
map is empty or the query failed.  `privOf` is the decrypt-and-parse of the
stored blob performed by `db.Manager.getKeys`. -/
def KeysManager.GetValidKeys (privOf : List Nat → RSAKey)
    (now keyLifetime : Int) (iter : List KeyRow) : List Key :=
  iter.map fun r =>
    { id := r.kid, createdAt := now - keyLifetime,
      expiresAt := now + keyLifetime, priv := privOf r.blob }

/-- `keys.Manager.GetSigningKey` (manager.go:131-157): queries the expired
map when `expired` and the valid map otherwise, then returns a `Key` built
from the first entry in map iteration order — again with fabricated
timestamps `now ∓ keyLifetime` — or `nil` (here `none`) when the map is
empty or the query failed. -/
def KeysManager.GetSigningKey (privOf : List Nat → RSAKey)
    (now keyLifetime : Int) (expired : Bool)
    (iterValid iterExpired : List KeyRow) : Option Key :=
  match (if expired then iterExpired else iterValid) with
  | [] => none
  | r :: _ =>
    some { id := r.kid, createdAt := now - keyLifetime,
           expiresAt := now + keyLifetime, priv := privOf r.blob }

/-- A JWK entry as produced by `Key.ToJWK` (key.go:23-32). -/
structure JWK where
  kty : String
  use : String
  kid : Nat
  n : List Char
  e : List Char
  alg : String
  deriving DecidableEq, Repr

/-- `intToBytes` (key.go:35-48): big-endian 4-byte encoding of the public
exponent with leading zero bytes stripped (at least one byte kept). -/
def intToBytes (i : Nat) : List Nat :=
  stripLeadingZeros [i >>> 24 % 256, i >>> 16 % 256, i >>> 8 % 256, i % 256]
where
  stripLeadingZeros : List Nat → List Nat
    | 0 :: rest@(_ :: _) => stripLeadingZeros rest
    | l => l

/-- Big-endian byte encoding of a natural number, empty for zero — the
behaviour of Go's `big.Int.Bytes()` used for the RSA modulus. -/
def natBytes : Nat → List Nat
  | 0 => []
  | n + 1 => natBytes ((n + 1) / 256) ++ [(n + 1) % 256]
decreasing_by exact Nat.div_lt_self (Nat.succ_pos n) (by omega)

/-- `Key.ToJWK` (key.go:23-32): the published JWK entry for one key. -/
def Key.ToJWK (k : Key) : JWK :=
  { kty := "RSA", use := "sig", kid := k.id,
    n := encodeBase64URL (natBytes k.priv.n),
    e := encodeBase64URL (intToBytes k.priv.e), alg := "RS256" }

/-- `keys.Manager.GetJWKS` (jwks source file, lines 9-21): maps `ToJWK` over
`GetValidKeys()` — hence over the valid-key map in iteration order. -/
def KeysManager.GetJWKS (privOf : List Nat → RSAKey)
    (now keyLifetime : Int) (iter : List KeyRow) : List JWK :=
  (KeysManager.GetValidKeys privOf now keyLifetime iter).map Key.ToJWK

/-! ### Single-key lookups (C5) and result ordering (C6) -/

/-- Specification predicate: `res` is the most-recently-created (highest-kid)
row of the `p`-partition of `t`, or an explicit absent result when the
partition is empty. -/
def MostRecentOf (p : KeyRow → Bool) (t : KeysTable) (res : Option KeyRow) : Prop :=
  (∀ r, res = some r →
      r ∈ t.rows ∧ p r = true ∧ ∀ x ∈ t.rows, p x = true → x.kid ≤ r.kid) ∧
    (res = none ↔ ∀ r ∈ t.rows, p r = false)

/-- Specification predicate: `res` is a key built from *some* row of the
`p`-partition of `t`, or an explicit absent result when the partition is
empty. -/
def FromPartition (p : KeyRow → Bool) (t : KeysTable) (res : Option Key) : Prop :=
  (∀ k, res = some k → ∃ r ∈ t.rows, p r = true ∧ k.id = r.kid) ∧
    (res = none ↔ ∀ r ∈ t.rows, p r = false)

theorem head_sorted_filter (p : KeyRow → Bool) (rows : List KeyRow) :
    (∀ r, (List.insertionSort kidGE (rows.filter p)).head? = some r →
        r ∈ rows ∧ p r = true ∧ ∀ x ∈ rows, p x = true → x.kid ≤ r.kid) ∧
      ((List.insertionSort kidGE (rows.filter p)).head? = none ↔
        ∀ r ∈ rows, p r = false) := by
  constructor
  · intro r hr
    have hsorted : List.Sorted kidGE (List.insertionSort kidGE (rows.filter p)) :=
      List.sorted_insertionSort kidGE (rows.filter p)
    cases hcase : List.insertionSort kidGE (rows.filter p) with
    | nil => rw [hcase] at hr; exact absurd hr (by simp)
    | cons a tail =>
      rw [hcase] at hr
      obtain rfl : a = r := by simpa using hr
      have hmem : a ∈ rows.filter p := by
        have : a ∈ List.insertionSort kidGE (rows.filter p) := by
          rw [hcase]; exact List.mem_cons_self _ _
        simpa using this
      obtain ⟨hrrows, hp⟩ := List.mem_filter.mp hmem
      refine ⟨hrrows, hp, ?_⟩
      intro x hx hpx
      have hxs : x ∈ List.insertionSort kidGE (rows.filter p) := by
        simp [List.mem_filter, hx, hpx]
      rw [hcase] at hxs hsorted
      rcases List.mem_cons.mp hxs with rfl | hxtail
      · exact Nat.le_refl _
      · exact List.rel_of_sorted_cons hsorted x hxtail
  · rw [List.head?_eq_none_iff]
    constructor
    · intro h r hr
      by_contra hp
      have hpt : p r = true := by
        cases hpr : p r
        · exact absurd hpr hp
        · rfl
      have : r ∈ List.insertionSort kidGE (rows.filter p) := by
        simp [List.mem_filter, hr, hpt]
      rw [h] at this
      exact absurd this (List.not_mem_nil r)
    · intro h
      have hfil : rows.filter p = [] :=
        List.filter_eq_nil.mpr fun a ha => by simp [h a ha]
      rw [hfil]
      rfl

/-- `GetSigningKey` is `Option.map` of a key constructor over the head of
the chosen iteration order. -/
theorem getSigningKey_eq (privOf : List Nat → RSAKey) (now L : Int)
    (expired : Bool) (iterV iterE : List KeyRow) :
    KeysManager.GetSigningKey privOf now L expired iterV iterE =
      ((if expired then iterE else iterV).head?).map fun r =>
        { id := r.kid, createdAt := now - L, expiresAt := now + L,
          priv := privOf r.blob } := by
  cases expired
  case false => cases iterV <;> rfl
  case true => cases iterE <;> rfl

theorem fromPartition_of_perm (privOf : List Nat → RSAKey) (now L : Int)
    (p : KeyRow → Bool) (t : KeysTable) (iter : List KeyRow)
    (h : iter.Perm (t.rows.filter p)) :
    (∀ k, (iter.head?).map (fun r =>
        ({ id := r.kid, createdAt := now - L, expiresAt := now + L,
           priv := privOf r.blob } : Key)) = some k →
      ∃ r ∈ t.rows, p r = true ∧ k.id = r.kid) ∧
    ((iter.head?).map (fun r =>
        ({ id := r.kid, createdAt := now - L, expiresAt := now + L,
           priv := privOf r.blob } : Key)) = none ↔
      ∀ r ∈ t.rows, p r = false) := by
  constructor
  · intro k hk
    cases hcase : iter with
    | nil => rw [hcase] at hk; exact absurd hk (by simp)
    | cons a tail =>
      rw [hcase] at hk
      have ha : a ∈ t.rows.filter p := h.mem_iff.mp (by rw [hcase]; simp)
      obtain ⟨harows, hap⟩ := List.mem_filter.mp ha
      refine ⟨a, harows, hap, ?_⟩
      injection hk with hk
      rw [← hk]
  · cases hcase : iter with
    | nil =>
      constructor
      · intro _ r hr
        by_contra hp
        have hpt : p r = true := by
          cases hpr : p r
          · exact absurd hpr hp
          · rfl
        have : r ∈ iter := h.mem_iff.mpr (List.mem_filter.mpr ⟨hr, hpt⟩)
        rw [hcase] at this
        exact absurd this (List.not_mem_nil r)
      · intro _; rfl
    | cons a tail =>
      constructor
      · intro hk; exact absurd hk (by simp)
      · intro hall
        have ha : a ∈ t.rows.filter p := h.mem_iff.mp (by rw [hcase]; simp)
        obtain ⟨harows, hap⟩ := List.mem_filter.mp ha
        rw [hall a harows] at hap
        exact absurd hap (by simp)

/-- C5 as amended: `Database.GetAnyValidKey` / `GetAnyExpiredKey` return the
most-recently-created (highest-kid) record of their partition and an explicit
not-found result exactly when the partition is empty; the lifecycle manager's
`GetSigningKey(expired)` returns a key built from *some* record of its
partition — the first in Go map iteration order, not necessarily the most
recent — and `nil` exactly when the partition is empty. -/
theorem anyKey_and_signingKey (privOf : List Nat → RSAKey) (now L : Int)
    (t : KeysTable) (iterV iterE : List KeyRow)
    (hV : iterV.Perm (Manager.GetValidKeysRows now t))
    (hE : iterE.Perm (Manager.GetExpiredKeysRows now t)) :
    MostRecentOf (validAt now) t (Database.GetAnyValidKey now t) ∧
      MostRecentOf (expiredAt now) t (Database.GetAnyExpiredKey now t) ∧
      FromPartition (expiredAt now) t
        (KeysManager.GetSigningKey privOf now L true iterV iterE) ∧
      FromPartition (validAt now) t
        (KeysManager.GetSigningKey privOf now L false iterV iterE) := by
  refine ⟨head_sorted_filter (validAt now) t.rows,
    head_sorted_filter (expiredAt now) t.rows, ?_, ?_⟩
  · rw [FromPartition, getSigningKey_eq]
    exact fromPartition_of_perm privOf now L (expiredAt now) t iterE hE
  · rw [FromPartition, getSigningKey_eq]
    exact fromPartition_of_perm privOf now L (validAt now) t iterV hV

/-- Concrete store used in counterexamples: two rows, kids 1 and 2. -/
def cexTable : KeysTable := ⟨3, [⟨1, [1], 0⟩, ⟨2, [2], 0⟩]⟩

/-- Concrete decrypt-and-parse used in counterexamples. -/
def cexPrivOf : List Nat → RSAKey := fun _ => ⟨0, 0, 0⟩

theorem anyKey_and_signingKey_witness :
    ([⟨2, [2], 10⟩] : List KeyRow).Perm (Manager.GetValidKeysRows 5 ⟨3, [⟨1, [1], 0⟩, ⟨2, [2], 10⟩]⟩) ∧
      ([⟨1, [1], 0⟩] : List KeyRow).Perm (Manager.GetExpiredKeysRows 5 ⟨3, [⟨1, [1], 0⟩, ⟨2, [2], 10⟩]⟩) ∧
      (MostRecentOf (validAt 5) ⟨3, [⟨1, [1], 0⟩, ⟨2, [2], 10⟩]⟩
          (Database.GetAnyValidKey 5 ⟨3, [⟨1, [1], 0⟩, ⟨2, [2], 10⟩]⟩) ∧
        MostRecentOf (expiredAt 5) ⟨3, [⟨1, [1], 0⟩, ⟨2, [2], 10⟩]⟩
          (Database.GetAnyExpiredKey 5 ⟨3, [⟨1, [1], 0⟩, ⟨2, [2], 10⟩]⟩) ∧
        FromPartition (expiredAt 5) ⟨3, [⟨1, [1], 0⟩, ⟨2, [2], 10⟩]⟩
          (KeysManager.GetSigningKey cexPrivOf 5 10 true [⟨2, [2], 10⟩] [⟨1, [1], 0⟩]) ∧
        FromPartition (validAt 5) ⟨3, [⟨1, [1], 0⟩, ⟨2, [2], 10⟩]⟩
          (KeysManager.GetSigningKey cexPrivOf 5 10 false [⟨2, [2], 10⟩] [⟨1, [1], 0⟩])) :=
  ⟨by decide, by decide,
    anyKey_and_signingKey cexPrivOf 5 10 ⟨3, [⟨1, [1], 0⟩, ⟨2, [2], 10⟩]⟩
      [⟨2, [2], 10⟩] [⟨1, [1], 0⟩] (by decide) (by decide)⟩

/-- C5 (as stated) is false for the lifecycle manager's single-key lookup:
with two expired rows (kids 1 and 2) and the Go-map iteration order that
yields kid 1 first — map iteration order is unspecified, so this is a
possible execution — `GetSigningKey(true)` returns the key with kid 1 even
though the most-recently-created record of the expired partition is kid 2. -/
theorem getSigningKey_not_most_recent_cex :
    ([⟨1, [1], 0⟩, ⟨2, [2], 0⟩] : List KeyRow).Perm
        (Manager.GetExpiredKeysRows 5 cexTable) ∧
      KeysManager.GetSigningKey cexPrivOf 5 10 true []
          [⟨1, [1], 0⟩, ⟨2, [2], 0⟩] =
        some ⟨1, -5, 15, ⟨0, 0, 0⟩⟩ ∧
      (⟨2, [2], 0⟩ : KeyRow) ∈ Manager.GetExpiredKeysRows 5 cexTable ∧
      expiredAt 5 ⟨2, [2], 0⟩ = true ∧ ¬(2 : Nat) ≤ 1 :=
  ⟨by decide, rfl, by decide, by decide, by decide⟩

/-- C6 as amended: the `Database` multi-record queries return their rows
ordered most-recent-kid-first, and the published JWKS listing contains
exactly the currently-valid keys (one entry per valid record, by kid) — but
in Go map iteration order, which is not necessarily newest first. -/
theorem queries_ordered_jwks_valid_only (privOf : List Nat → RSAKey)
    (now L : Int) (t : KeysTable) (iterV : List KeyRow)
    (hV : iterV.Perm (Manager.GetValidKeysRows now t)) :
    List.Sorted kidGE (Database.GetValidKeys now t) ∧
      List.Sorted kidGE (Database.GetExpiredKeys now t) ∧
      ((KeysManager.GetJWKS privOf now L iterV).map JWK.kid).Perm
        ((Manager.GetValidKeysRows now t).map KeyRow.kid) ∧
      ∀ j ∈ KeysManager.GetJWKS privOf now L iterV,
        ∃ r ∈ t.rows, validAt now r = true ∧ j.kid = r.kid := by
  refine ⟨List.sorted_insertionSort kidGE _, List.sorted_insertionSort kidGE _,
    ?_, ?_⟩
  · have hmap : (KeysManager.GetJWKS privOf now L iterV).map JWK.kid =
        iterV.map KeyRow.kid := by
      simp [KeysManager.GetJWKS, KeysManager.GetValidKeys, Key.ToJWK,
        List.map_map, Function.comp]
    rw [hmap]
    exact hV.map KeyRow.kid
  · intro j hj
    simp only [KeysManager.GetJWKS, KeysManager.GetValidKeys, List.map_map,
      List.mem_map, Function.comp] at hj
    obtain ⟨r, hr, hjr⟩ := hj
    have hrf : r ∈ t.rows.filter (validAt now) := hV.mem_iff.mp hr
    obtain ⟨hrrows, hrp⟩ := List.mem_filter.mp hrf
    exact ⟨r, hrrows, hrp, by rw [← hjr]; rfl⟩

theorem queries_ordered_jwks_valid_only_witness :
    ([⟨1, [1], 10⟩, ⟨2, [2], 10⟩] : List KeyRow).Perm
        (Manager.GetValidKeysRows 5 ⟨3, [⟨1, [1], 10⟩, ⟨2, [2], 10⟩]⟩) ∧
      (List.Sorted kidGE (Database.GetValidKeys 5 ⟨3, [⟨1, [1], 10⟩, ⟨2, [2], 10⟩]⟩) ∧
        List.Sorted kidGE (Database.GetExpiredKeys 5 ⟨3, [⟨1, [1], 10⟩, ⟨2, [2], 10⟩]⟩) ∧
        ((KeysManager.GetJWKS cexPrivOf 5 10 [⟨1, [1], 10⟩, ⟨2, [2], 10⟩]).map JWK.kid).Perm
          ((Manager.GetValidKeysRows 5 ⟨3, [⟨1, [1], 10⟩, ⟨2, [2], 10⟩]⟩).map KeyRow.kid) ∧
        ∀ j ∈ KeysManager.GetJWKS cexPrivOf 5 10 [⟨1, [1], 10⟩, ⟨2, [2], 10⟩],
          ∃ r ∈ (⟨3, [⟨1, [1], 10⟩, ⟨2, [2], 10⟩]⟩ : KeysTable).rows,
            validAt 5 r = true ∧ j.kid = r.kid) :=
  ⟨by decide,
    queries_ordered_jwks_valid_only cexPrivOf 5 10
      ⟨3, [⟨1, [1], 10⟩, ⟨2, [2], 10⟩]⟩ [⟨1, [1], 10⟩, ⟨2, [2], 10⟩] (by decide)⟩

/-- C6 (as stated) is false for the published listing's order: with two
currently-valid rows (kids 1 and 2) and the Go-map iteration order that
yields kid 1 first — a possible execution, since map order is unspecified —
the JWKS lists kid 1 before the newer kid 2, so it is not newest first. -/
theorem jwks_not_newest_first_cex :
    ([⟨1, [1], 10⟩, ⟨2, [2], 10⟩] : List KeyRow).Perm
        (Manager.GetValidKeysRows 5 ⟨3, [⟨1, [1], 10⟩, ⟨2, [2], 10⟩]⟩) ∧
      (KeysManager.GetJWKS cexPrivOf 5 10
          [⟨1, [1], 10⟩, ⟨2, [2], 10⟩]).map JWK.kid = [1, 2] ∧
      ¬ List.Sorted (fun a b : Nat => b ≤ a) [1, 2] :=
  ⟨by decide, rfl, by decide⟩

/-! ## Rotation — `internal/keys/manager.go:160-184`

`rotateKey` generates a keypair (`GenerateRSAKeyPair`, generator.go:11-27,
sets `CreatedAt = now`), stores it encrypted with expiry `now + keyLifetime`,
overwrites the key's `ID` with the database kid and its `ExpiresAt` with the
expiry, then under the cache lock inserts it into the `keys` map and marks it
current. -/

/-- The mutable state of `keys.Manager` relevant to rotation: the backing
table, the `keys map[string]*Key` cache (keyed by the kid; Go uses its
decimal string) and `currentKey`. -/
structure MState where
  table : KeysTable
  cache : List (Nat × Key)
  currentKey : Option Key
  deriving Repr

/-- Go map assignment `m.keys[id] = key`: replace any existing entry. -/
def cacheInsert (m : List (Nat × Key)) (k : Nat) (v : Key) : List (Nat × Key) :=
  (k, v) :: m.filter fun p => p.1 != k

/-- `rotateKey` (manager.go:160-184). -/
def rotateKey (enc : AEAD) (pemEncode : RSAKey → List Nat) (nonce : List Nat)
    (newPriv : RSAKey) (now keyLifetime : Int) (s : MState) : MState :=
  let expiry := now + keyLifetime
  let res := Manager.StoreKey enc pemEncode nonce newPriv expiry s.table
  let newKey : Key :=
    { id := res.1, createdAt := now, expiresAt := expiry, priv := newPriv }
  { table := res.2, cache := cacheInsert s.cache res.1 newKey,
    currentKey := some newKey }

/-- C7: from every manager state, two successful `rotateKey` invocations
leave the cache containing the two freshly rotated keys under distinct
(auto-increment) ids, with the key produced by the second invocation —
alone, `currentKey` being a single slot — marked current; from the
empty-cache state `NewManager` builds, the cache then holds exactly those
two keys. -/
theorem rotate_twice_distinct_current (enc : AEAD)
    (pemEncode : RSAKey → List Nat) (nonce1 nonce2 : List Nat)
    (k1 k2 : RSAKey) (now1 L1 now2 L2 : Int) (t0 : KeysTable)
    (c0 : List (Nat × Key)) (cur0 : Option Key) :
    (t0.nextKid,
        ({ id := t0.nextKid, createdAt := now1, expiresAt := now1 + L1,
           priv := k1 } : Key)) ∈
        (rotateKey enc pemEncode nonce2 k2 now2 L2
          (rotateKey enc pemEncode nonce1 k1 now1 L1 ⟨t0, c0, cur0⟩)).cache ∧
      (t0.nextKid + 1,
        ({ id := t0.nextKid + 1, createdAt := now2, expiresAt := now2 + L2,
           priv := k2 } : Key)) ∈
        (rotateKey enc pemEncode nonce2 k2 now2 L2
          (rotateKey enc pemEncode nonce1 k1 now1 L1 ⟨t0, c0, cur0⟩)).cache ∧
      t0.nextKid + 1 ≠ t0.nextKid ∧
      (rotateKey enc pemEncode nonce2 k2 now2 L2
          (rotateKey enc pemEncode nonce1 k1 now1 L1 ⟨t0, c0, cur0⟩)).currentKey =
        some ⟨t0.nextKid + 1, now2, now2 + L2, k2⟩ ∧
      (c0 = [] →
        (rotateKey enc pemEncode nonce2 k2 now2 L2
          (rotateKey enc pemEncode nonce1 k1 now1 L1 ⟨t0, c0, cur0⟩)).cache.length = 2) := by
  have hbne : (t0.nextKid != t0.nextKid + 1) = true := by
    simp [bne_iff_ne]
  have hc : (rotateKey enc pemEncode nonce2 k2 now2 L2
      (rotateKey enc pemEncode nonce1 k1 now1 L1 ⟨t0, c0, cur0⟩)).cache =
      (t0.nextKid + 1,
        ({ id := t0.nextKid + 1, createdAt := now2, expiresAt := now2 + L2,
           priv := k2 } : Key)) ::
      (t0.nextKid,
        ({ id := t0.nextKid, createdAt := now1, expiresAt := now1 + L1,
           priv := k1 } : Key)) ::
      ((c0.filter fun p => p.1 != t0.nextKid).filter
        fun p => p.1 != t0.nextKid + 1) := by
    simp [rotateKey, cacheInsert, Manager.StoreKey, KeysTable.insert,
      List.filter_cons, hbne]
  refine ⟨?_, ?_, by omega, rfl, ?_⟩
  · rw [hc]; simp
  · rw [hc]; simp
  · intro h0
    rw [hc, h0]
    rfl

theorem rotate_twice_distinct_current_witness :
    (1, ({ id := 1, createdAt := 0, expiresAt := 0 + 10,
             priv := ⟨1, 1, 1⟩ } : Key)) ∈
        (rotateKey tagAEAD cexPem [0, 0] ⟨2, 2, 2⟩ 5 10
          (rotateKey tagAEAD cexPem [0, 0] ⟨1, 1, 1⟩ 0 10 ⟨⟨1, []⟩, [], none⟩)).cache ∧
      (1 + 1, ({ id := 1 + 1, createdAt := 5, expiresAt := 5 + 10,
                 priv := ⟨2, 2, 2⟩ } : Key)) ∈
        (rotateKey tagAEAD cexPem [0, 0] ⟨2, 2, 2⟩ 5 10
          (rotateKey tagAEAD cexPem [0, 0] ⟨1, 1, 1⟩ 0 10 ⟨⟨1, []⟩, [], none⟩)).cache ∧
      (1 + 1 : Nat) ≠ 1 ∧
      (rotateKey tagAEAD cexPem [0, 0] ⟨2, 2, 2⟩ 5 10
          (rotateKey tagAEAD cexPem [0, 0] ⟨1, 1, 1⟩ 0 10 ⟨⟨1, []⟩, [], none⟩)).currentKey =
        some ⟨1 + 1, 5, 5 + 10, ⟨2, 2, 2⟩⟩ ∧
      (([] : List (Nat × Key)) = [] →
        (rotateKey tagAEAD cexPem [0, 0] ⟨2, 2, 2⟩ 5 10
          (rotateKey tagAEAD cexPem [0, 0] ⟨1, 1, 1⟩ 0 10 ⟨⟨1, []⟩, [], none⟩)).cache.length = 2) :=
  rotate_twice_distinct_current tagAEAD cexPem [0, 0] [0, 0] ⟨1, 1, 1⟩ ⟨2, 2, 2⟩
    0 10 5 10 ⟨1, []⟩ [] none

/-! ## Token signer — `internal/jwt/jwt.go`

`CreateJWT` builds header `{alg: RS256, typ: JWT, kid}` and payload
`{iss, sub: "user123", aud: "jwks-client", iat: now.Unix(),
exp: now.Add(expiry).Unix()}`, marshals both to JSON, base64url-encodes
them, signs `header.payload` with RS256 and appends the encoded signature.
Go `time.Time` instants and `time.Duration` lifetimes are nanosecond values
(modelled as `Int`); `Time.Unix()` is the floor of the nanosecond value over
10⁹, which for the positive divisor is Lean's Euclidean `/`.  JSON
marshalling (which cannot fail for these fixed structs) and RS256 signing
are standard-library collaborators, passed as functions; signing is the only
fallible step. -/

/-- `jwt.Header` (jwt.go:14-18). -/
structure Header where
  alg : String
  typ : String
  kid : String
  deriving DecidableEq, Repr

/-- `jwt.Payload` (jwt.go:21-27). -/
structure Payload where
  iss : String
  sub : String
  aud : String
  exp : Int
  iat : Int
  deriving DecidableEq, Repr

/-- Go `Time.Unix()` on a nanosecond instant: floor division by 10⁹. -/
def unixSec (ns : Int) : Int := ns / 1000000000

/-- The payload built by `CreateJWT` (jwt.go:41-47):
`Iat = now.Unix()`, `Exp = now.Add(expiry).Unix()`. -/
def createPayload (issuer : String) (nowNs lifetimeNs : Int) : Payload :=
  { iss := issuer, sub := "user123", aud := "jwks-client",
    exp := unixSec (nowNs + lifetimeNs), iat := unixSec nowNs }

/-- A signing failure (`rsa.SignPKCS1v15` error, wrapped by jwt.go:67). -/
inductive SignError where
  | signingFailed
  deriving DecidableEq, Repr

/-- `CreateJWT` (jwt.go:30-73): marshal header and payload (`jsonH`,
`jsonP` model `json.Marshal`, which cannot fail on these structs), encode
with the custom base64url codec, sign `header.payload` (`sign` models
`signRS256`; its failure aborts with a signing error) and append the
encoded signature. -/
def CreateJWT (jsonH : Header → List Nat) (jsonP : Payload → List Nat)
    (sign : List Char → Except SignError (List Nat))
    (kid issuer : String) (nowNs lifetimeNs : Int) :
    Except SignError (List Char) :=
  let header : Header := { alg := "RS256", typ := "JWT", kid := kid }
  let payload := createPayload issuer nowNs lifetimeNs
  let headerB64 := encodeBase64URL (jsonH header)
  let payloadB64 := encodeBase64URL (jsonP payload)
  let message := headerB64 ++ '.' :: payloadB64
  match sign message with
  | .error e => .error e
  | .ok signature => .ok (message ++ '.' :: encodeBase64URL signature)

/-- C9 as amended: for every private key whose signing succeeds, every kid,
issuer and lifetime — negative lifetimes included — `CreateJWT` succeeds
(a negative lifetime is never an error), with payload `iat = now` and
`exp = now + lifetime` in floor-truncated Unix seconds; a negative lifetime
of at least one second yields `exp` strictly less than `iat` (a negative
sub-second lifetime can leave `exp = iat` because both are truncated to
whole seconds). -/
theorem createJWT_payload (jsonH : Header → List Nat)
    (jsonP : Payload → List Nat)
    (sign : List Char → Except SignError (List Nat))
    (kid issuer : String) (nowNs lifetimeNs : Int)
    (hsign : ∀ m, ∃ s, sign m = .ok s) :
    (∃ tok, CreateJWT jsonH jsonP sign kid issuer nowNs lifetimeNs = .ok tok) ∧
      (createPayload issuer nowNs lifetimeNs).iat = unixSec nowNs ∧
      (createPayload issuer nowNs lifetimeNs).exp = unixSec (nowNs + lifetimeNs) ∧
      (lifetimeNs ≤ -1000000000 →
        (createPayload issuer nowNs lifetimeNs).exp <
          (createPayload issuer nowNs lifetimeNs).iat) := by
  refine ⟨?_, rfl, rfl, ?_⟩
  · obtain ⟨s, hs⟩ := hsign
      (encodeBase64URL (jsonH { alg := "RS256", typ := "JWT", kid := kid }) ++
        '.' :: encodeBase64URL (jsonP (createPayload issuer nowNs lifetimeNs)))
    exact ⟨_, by rw [CreateJWT, hs]⟩
  · intro hneg
    simp only [createPayload, unixSec]
    omega

theorem createJWT_payload_witness :
    (∀ m, ∃ s, (fun _ : List Char => (Except.ok [] : Except SignError (List Nat))) m = .ok s) ∧
      ((∃ tok, CreateJWT (fun _ => []) (fun _ => [])
          (fun _ => .ok []) "kid1" "iss1" 1500000000 (-2000000000) = .ok tok) ∧
        (createPayload "iss1" 1500000000 (-2000000000)).iat = unixSec 1500000000 ∧
        (createPayload "iss1" 1500000000 (-2000000000)).exp =
          unixSec (1500000000 + -2000000000) ∧
        ((-2000000000 : Int) ≤ -1000000000 →
          (createPayload "iss1" 1500000000 (-2000000000)).exp <
            (createPayload "iss1" 1500000000 (-2000000000)).iat)) :=
  ⟨fun m => ⟨[], rfl⟩,
    createJWT_payload (fun _ => []) (fun _ => []) (fun _ => .ok [])
      "kid1" "iss1" 1500000000 (-2000000000) (fun m => ⟨[], rfl⟩)⟩

/-- C9 (as stated) is false for sub-second negative lifetimes: at
`now = 0.5s` (in nanoseconds) a lifetime of `-1ns` is negative, yet the
payload has `exp = iat = 0` — not `exp` strictly less than `iat` — because
`Time.Unix()` truncates both to whole seconds. -/
theorem negative_lifetime_exp_eq_iat_cex :
    (-1 : Int) < 0 ∧
      (createPayload "iss" 500000000 (-1)).exp =
        (createPayload "iss" 500000000 (-1)).iat := by
  constructor
  · decide
  · simp only [createPayload, unixSec]
    decide

/-- C10: every key the lifecycle manager returns from `GetValidKeys` or from
`GetSigningKey` carries the fabricated timestamps
`CreatedAt = now - keyLifetime` and `ExpiresAt = now + keyLifetime`,
independent of the expiry stored with the record: a key fetched from the
expired partition via `GetSigningKey(true)` stems from a row with
`exp ≤ now` yet reports an `ExpiresAt` in the future whenever the
configured lifetime is positive. -/
theorem fabricated_timestamps (privOf : List Nat → RSAKey) (now L : Int)
    (t : KeysTable) (iterV iterE : List KeyRow)
    (hE : iterE.Perm (Manager.GetExpiredKeysRows now t)) :
    (∀ k ∈ KeysManager.GetValidKeys privOf now L iterV,
        k.createdAt = now - L ∧ k.expiresAt = now + L) ∧
      ∀ k, KeysManager.GetSigningKey privOf now L true iterV iterE = some k →
        k.createdAt = now - L ∧ k.expiresAt = now + L ∧
          (0 < L → now < k.expiresAt) ∧
          ∃ r ∈ t.rows, r.kid = k.id ∧ r.exp ≤ now := by
  constructor
  · intro k hk
    simp only [KeysManager.GetValidKeys, List.mem_map] at hk
    obtain ⟨r, _, hrk⟩ := hk
    rw [← hrk]
    exact ⟨rfl, rfl⟩
  · intro k hk
    cases hcase : iterE with
    | nil => rw [hcase] at hk; exact absurd hk (by simp [KeysManager.GetSigningKey])
    | cons a tail =>
      rw [hcase] at hk
      have hk2 : ({ id := a.kid, createdAt := now - L,
                    expiresAt := now + L, priv := privOf a.blob } : Key) = k := by
        injection hk
      have ha : a ∈ t.rows.filter (expiredAt now) :=
        hE.mem_iff.mp (by rw [hcase]; simp)
      obtain ⟨harows, hap⟩ := List.mem_filter.mp ha
      have haexp : a.exp ≤ now := by
        simpa [expiredAt, decide_eq_true_eq] using hap
      refine ⟨by rw [← hk2], by rw [← hk2], ?_, a, harows, by rw [← hk2], haexp⟩
      intro hL
      rw [← hk2]
      simp only
      omega

theorem fabricated_timestamps_witness :
    ([⟨1, [1], 0⟩, ⟨2, [2], 0⟩] : List KeyRow).Perm
        (Manager.GetExpiredKeysRows 5 cexTable) ∧
      ((∀ k ∈ KeysManager.GetValidKeys cexPrivOf 5 10 [],
          k.createdAt = 5 - 10 ∧ k.expiresAt = 5 + 10) ∧
        ∀ k, KeysManager.GetSigningKey cexPrivOf 5 10 true []
            [⟨1, [1], 0⟩, ⟨2, [2], 0⟩] = some k →
          k.createdAt = 5 - 10 ∧ k.expiresAt = 5 + 10 ∧
            ((0 : Int) < 10 → (5 : Int) < k.expiresAt) ∧
            ∃ r ∈ cexTable.rows, r.kid = k.id ∧ r.exp ≤ 5) :=
  ⟨by decide,
    fabricated_timestamps cexPrivOf 5 10 cexTable []
      [⟨1, [1], 0⟩, ⟨2, [2], 0⟩] (by decide)⟩

end JwksSrv
